import Mathlib

/-!
Verification of the polars dataframe-engine specification.

The repository ships the Python binding layer and its test suite; the engine
itself (columnar tables, groupby, join, CSV serialization, expression
evaluation) is the native library the binding calls into.  Each definition
below is therefore modelled from the specification's description of that
engine, and the theorems settle the specification's testable properties
against those models.
-/

namespace Polars

/-- Modelled from the spec: the error taxonomy of §7 — `ShapeError`
(length/dimension mismatch), `SchemaError`, `NotFoundError`, `ComputeError`,
`DuplicateError`, and the `ValueError` class for malformed call arguments. -/
inductive PolarsError where
  | shapeError
  | schemaError
  | notFoundError
  | computeError
  | duplicateError
  | valueError
deriving DecidableEq

/-- Modelled from the spec: a cell value of a column — null, integer, string
(list of characters), or exact numeric (standing for the float payload of a
numeric column).  Cells of a `List`-typed column are modelled as explicit
`List Value` values where an operation needs them. -/
inductive Value where
  | null : Value
  | int : Int → Value
  | str : List Char → Value
  | rat : ℚ → Value
deriving DecidableEq

/-- Modelled from the spec: a Table is an ordered mapping from column name to
column, every column of equal length (§3).  Columns are kept in order as
(name, cells) pairs. -/
structure DataFrame where
  cols : List (String × List Value)
deriving DecidableEq

/-- Modelled from the spec: `width` = column count (§3). -/
def DataFrame.width (df : DataFrame) : Nat := df.cols.length

/-- Modelled from the spec: the `height` of a Table, the common column
length (§3); an empty Table has height 0. -/
def DataFrame.height (df : DataFrame) : Nat :=
  match df.cols with
  | [] => 0
  | c :: _ => c.2.length

/-- Columns of a well-formed Table all have the common length. -/
def DataFrame.wellFormed (df : DataFrame) : Prop :=
  ∀ c ∈ df.cols, c.2.length = df.height

/-- Modelled from the spec: Table construction from a column-name → sequence
mapping; every supplied column must have consistent length, mismatched
lengths fail with `ShapeError` (§4.2, §8). -/
def mkDataFrame (data : List (String × List Value)) : Except PolarsError DataFrame :=
  match data with
  | [] => .ok ⟨[]⟩
  | c :: rest =>
    if rest.all (fun c2 => c2.2.length = c.2.length) then .ok ⟨data⟩
    else .error .shapeError

/-- Modelled from the spec: `head(n)` keeps the first `n` rows of every
column; with `n` exceeding the height it returns the full Table (§8). -/
def DataFrame.head (df : DataFrame) (n : Nat) : DataFrame :=
  ⟨df.cols.map (fun c => (c.1, c.2.take n))⟩

/-- Modelled from the spec: `tail(n)` keeps the last `n` rows of every
column; with `n` exceeding the height it returns the full Table (§8). -/
def DataFrame.tail (df : DataFrame) (n : Nat) : DataFrame :=
  ⟨df.cols.map (fun c => (c.1, c.2.drop (c.2.length - n)))⟩

/-- Modelled from the spec: `vstack` row-wise concatenation of two Tables
with identical schema — each column of the second is appended to the
positionally matching column of the first (§4.2). -/
def DataFrame.vstack (a b : DataFrame) : DataFrame :=
  ⟨a.cols.zipWith (fun c d => (c.1, c.2 ++ d.2)) b.cols⟩

/-- Modelled from the spec: `concat` is n-ary vstack; an empty input list is
a malformed call (`ValueError`) (§4.2 and test_concat). -/
def concatFrames (dfs : List DataFrame) : Except PolarsError DataFrame :=
  match dfs with
  | [] => .error .valueError
  | d :: rest => .ok (rest.foldl DataFrame.vstack d)

/-- Modelled from the spec: a store of materialized Tables held by the
caller, used to state frame-effect (non-mutation) properties: an operation
that produces a new Table appends it to the store and never rebinds an
existing entry (§3 — Columns/Tables are immutable once constructed). -/
def concatInStore (store : List DataFrame) (ids : List Nat) : List DataFrame :=
  match concatFrames (ids.filterMap (fun i => store.get? i)) with
  | .ok df => store ++ [df]
  | .error _ => store

/-- Modelled from the spec: rows enter the groupby engine enumerated with
their original row indices (§3 GroupKey/GroupState holds row indices). -/
def enumRows {α : Type} : Nat → List α → List (Nat × α)
  | _, [] => []
  | i, k :: ks => (i, k) :: enumRows (i + 1) ks

/-- Modelled from the spec: the hash strategy accumulates each row index
into the index list of its key's group, opening a new group at the end of
the insertion-ordered group state when the key is first seen (§4.4). -/
def insertRow {α : Type} [DecidableEq α] :
    List (α × List Nat) → α → Nat → List (α × List Nat)
  | [], k, i => [(k, [i])]
  | g :: rest, k, i =>
    if g.1 = k then (g.1, g.2 ++ [i]) :: rest else g :: insertRow rest k i

/-- Modelled from the spec: the single-pass group build over enumerated
rows, threading the accumulated group state (§4.4 hash strategy). -/
def groupPairsFrom {α : Type} [DecidableEq α]
    (acc : List (α × List Nat)) (pairs : List (Nat × α)) : List (α × List Nat) :=
  pairs.foldl (fun a p => insertRow a p.2 p.1) acc

/-- Modelled from the spec: single-pass hash groupby from an empty state. -/
def groupPairs {α : Type} [DecidableEq α] (pairs : List (Nat × α)) : List (α × List Nat) :=
  groupPairsFrom [] pairs

/-- Modelled from the spec: groupby with maintain_order=True — groups in
original first-seen order, each holding its ordered row-index list (§4.4). -/
def groupByOrdered {α : Type} [DecidableEq α] (ks : List α) : List (α × List Nat) :=
  groupPairs (enumRows 0 ks)

/-- Order of each key's first occurrence in the input — the spec's group
emission order law for maintain_order (§8), stated independently of the
group-state algorithm. -/
def firstOccAux {α : Type} [DecidableEq α] (acc : List α) : List α → List α
  | [] => acc
  | k :: ks => firstOccAux (if k ∈ acc then acc else acc ++ [k]) ks

/-- First-occurrence order of the distinct keys of the input. -/
def firstOccurrences {α : Type} [DecidableEq α] (ks : List α) : List α :=
  firstOccAux [] ks

/-- Row indices whose key equals `k`, in original row order — the claim-side
description of a group's membership. -/
def groupRows {α : Type} [DecidableEq α] (ks : List α) (k : α) : List Nat :=
  (List.range ks.length).filter (fun i => decide (ks[i]? = some k))

/-- Values sitting in the rows of group `k`, in original within-group row
order — the claim-side description of a list aggregation. -/
def groupValues {α β : Type} [DecidableEq α] (ks : List α) (ys : List β) (k : α) : List β :=
  ((ks.zip ys).filter (fun p => decide (p.1 = k))).map (fun p => p.2)

/-- Row indices recorded for key `k` among enumerated pairs. -/
def indicesOf {α : Type} [DecidableEq α] (k : α) (pairs : List (Nat × α)) : List Nat :=
  (pairs.filter (fun p => decide (p.2 = k))).map (fun p => p.1)

/-- Modelled from the spec: list aggregation (`agg_list`) — every group
collects the aggregated column's values at its row indices (§4.4). -/
def aggListOf {α β : Type} (groups : List (α × List Nat)) (ys : List β) : List (α × List β) :=
  groups.map (fun g => (g.1, g.2.filterMap (fun i => ys[i]?)))

/-- First-occurrence row index of a group: the head of its index list. -/
def firstIdx {α : Type} (g : α × List Nat) : Nat := g.2.headD 0

/-- Canonical description of a group state: the first-seen keys in order,
each paired with its recorded row indices. -/
def canonGroups {α : Type} [DecidableEq α] (pairs : List (Nat × α)) : List (α × List Nat) :=
  (firstOccurrences (pairs.map Prod.snd)).map (fun k => (k, indicesOf k pairs))

/-- Keys emitted by the partitioned-hash execution, partition by
partition. -/
def partitionKeys {α : Type} [DecidableEq α] (P : α → Nat) (nparts : Nat)
    (pairs : List (Nat × α)) : List α :=
  ((List.range nparts).map
    (fun p => firstOccurrences
      ((pairs.filter (fun q => decide (P q.2 % nparts = p))).map Prod.snd))).flatten

/-- Modelled from the spec: partitioned-hash execution — the key space is
split into `nparts` independent partitions by a hash `P`, each partition is
grouped separately, and the per-partition results are concatenated; under
maintain_order the merged groups are re-emitted in first-occurrence order
of their first row (§4.4). -/
def partitionedGroupPairs {α : Type} [DecidableEq α] (P : α → Nat) (nparts : Nat)
    (maintainOrder : Bool) (pairs : List (Nat × α)) : List (α × List Nat) :=
  let merged := ((List.range nparts).map
      (fun p => groupPairs (pairs.filter (fun q => decide (P q.2 % nparts = p))))).flatten
  if maintainOrder then merged.insertionSort (fun g g' => firstIdx g ≤ firstIdx g')
  else merged

/-- Modelled from the spec: the partitioned-hash groupby entry point taken
when the number of distinct groups is large (§4.4). -/
def partitionedGroupBy {α : Type} [DecidableEq α] (P : α → Nat) (nparts : Nat)
    (maintainOrder : Bool) (ks : List α) : List (α × List Nat) :=
  partitionedGroupPairs P nparts maintainOrder (enumRows 0 ks)

/-- Modelled from the spec: exploding one list-typed cell — an empty list
cell yields a single null value, a non-empty cell yields its elements in
order (§8 Boundary: a single null-valued row, not zero rows). -/
def explodeCell (cell : List Value) : List Value :=
  match cell with
  | [] => [Value.null]
  | vs => vs

/-- Modelled from the spec: explode on a table's list column, rows given as
(companion value, list cell) pairs — each input row expands to one output
row per exploded value, repeating the companion value (§4.2). -/
def explodeRows (rows : List (Value × List Value)) : List (Value × Value) :=
  rows.flatMap (fun r => (explodeCell r.2).map (fun v => (r.1, v)))

/-- Modelled from the spec: a fixed-width accumulator summing modulo `m`
(`m = 2^w` for a `w`-bit unsigned integer). -/
def sumWithModulus (m : Nat) (xs : List Nat) : Nat :=
  xs.foldl (fun a x => (a + x) % m) 0

/-- Modelled from the spec: mean aggregation over a narrow (UInt16) integer
column upcasts internally — the sum is accumulated at 64-bit width, then
divided exactly by the count (§4.4: upcast to avoid wraparound). -/
def meanUpcastUInt16 (xs : List Nat) : ℚ :=
  (sumWithModulus (2 ^ 64) xs : ℚ) / (xs.length : ℚ)

/-- Decimal digit rendering with structural fuel (the fuel only needs to
cover the digit count, and `n + 1` always does). -/
def natDigitsAux (fuel : Nat) (n : Nat) : List Char :=
  match fuel with
  | 0 => []
  | fuel + 1 =>
    if n < 10 then [Char.ofNat (48 + n)]
    else natDigitsAux fuel (n / 10) ++ [Char.ofNat (48 + n % 10)]

/-- Decimal digit rendering of a natural number, most significant first. -/
def natDigits (n : Nat) : List Char :=
  natDigitsAux (n + 1) n

/-- Decimal rendering of an integer with a leading minus sign if negative. -/
def intChars (i : Int) : List Char :=
  if i < 0 then '-' :: natDigits i.natAbs else natDigits i.natAbs

/-- Modelled from the spec §6: CSV cell rendering — integers in decimal,
strings as-is (the claim's cells need no quoting), null as the empty cell;
exact numerics render as integer when integral. -/
def renderCell : Value → List Char
  | .null => []
  | .int i => intChars i
  | .str s => s
  | .rat q => intChars q.num ++ (if q.den = 1 then [] else '/' :: natDigits q.den)

/-- Modelled from the spec §6: one comma-joined line with its trailing
newline. -/
def csvLine (cells : List (List Char)) : List Char :=
  (List.intersperse [','] cells).flatten ++ ['\n']

/-- Rendered cells of row `i`, in column order. -/
def rowCells (df : DataFrame) (i : Nat) : List (List Char) :=
  df.cols.map (fun c => renderCell (c.2.getD i Value.null))

/-- Modelled from the spec §6: `write_csv` emits one header line of
comma-joined names then one comma-joined row per record, trailing
newline. -/
def writeCSV (df : DataFrame) : List Char :=
  csvLine (df.cols.map (fun c => c.1.data)) ++
    ((List.range df.height).map (fun i => csvLine (rowCells df i))).flatten

/-- Splitting a character list at every occurrence of a separator. -/
def splitOnChar (sep : Char) : List Char → List (List Char)
  | [] => [[]]
  | c :: cs =>
    let r := splitOnChar sep cs
    if c = sep then [] :: r
    else (c :: r.headD []) :: r.tail

/-- The numeric value of a decimal digit character, if it is one. -/
def digitVal (c : Char) : Option Nat :=
  if 48 ≤ c.toNat ∧ c.toNat ≤ 57 then some (c.toNat - 48) else none

/-- Parsing a non-empty all-digit cell as a natural number. -/
def parseNatChars (cs : List Char) : Option Nat :=
  cs.foldl
    (fun acc c =>
      match acc, digitVal c with
      | some n, some d => some (10 * n + d)
      | _, _ => none)
    (if cs = [] then none else some 0)

/-- Parsing an optionally minus-signed all-digit cell as an integer. -/
def parseIntChars (cs : List Char) : Option Int :=
  match cs with
  | '-' :: rest => (parseNatChars rest).map (fun n => -(n : Int))
  | _ => (parseNatChars cs).map (fun n => (n : Int))

/-- Modelled from the spec §6: reading a cell back with dtype inference —
integer-looking cells become integers, everything else stays a string. -/
def parseCell (cs : List Char) : Value :=
  match parseIntChars cs with
  | some i => Value.int i
  | none => Value.str cs

/-- Modelled from the spec §6: re-reading CSV text — the first line names
the columns, every following non-empty line is one record, and each column
collects its parsed cells. -/
def readCSV (s : List Char) : DataFrame :=
  match splitOnChar '\n' s with
  | [] => ⟨[]⟩
  | header :: rest =>
    let rows := (rest.filter (fun r => decide (r ≠ []))).map (splitOnChar ',')
    ⟨(enumRows 0 (splitOnChar ',' header)).map
      (fun q => (String.mk q.2, rows.map (fun r => parseCell (r.getD q.1 []))))⟩

/-- The concrete table of test_write_csv:
foo = 1..5, bar = 6..10, ham = a..e. -/
def csvTestFrame : DataFrame :=
  ⟨[("foo", [Value.int 1, Value.int 2, Value.int 3, Value.int 4, Value.int 5]),
    ("bar", [Value.int 6, Value.int 7, Value.int 8, Value.int 9, Value.int 10]),
    ("ham", [Value.str ['a'], Value.str ['b'], Value.str ['c'],
             Value.str ['d'], Value.str ['e']])]⟩

/-- Modelled from the spec: the logical dtypes taking part in conditional
branch promotion (§3, §4.3). -/
inductive DType where
  | boolean
  | int64
  | float32
  | float64
  | utf8
deriving DecidableEq

/-- Modelled from the spec §4.3: the common supertype of the two branch
dtypes of a conditional — equal dtypes stay (Float32 stays Float32 only if
both branches are Float32-compatible), mixed numeric branches widen to the
wider float, and a string branch makes the result string. -/
def commonSupertype : DType → DType → DType
  | .utf8, _ => .utf8
  | _, .utf8 => .utf8
  | .float64, _ => .float64
  | _, .float64 => .float64
  | .float32, .float32 => .float32
  | .float32, _ => .float64
  | _, .float32 => .float64
  | .int64, _ => .int64
  | _, .int64 => .int64
  | .boolean, .boolean => .boolean

/-- Modelled from the spec §4.3: casting a branch cell to the promoted
dtype — integers render to their decimal string under utf8 and widen
exactly under float64; other cells carry over. -/
def castTo (d : DType) (v : Value) : Value :=
  match d, v with
  | .utf8, .int i => .str (intChars i)
  | .float64, .int i => .rat (i : ℚ)
  | _, v => v

/-- Modelled from the spec: a typed column as the expression engine sees it
(dtype plus cells). -/
structure Series where
  dtype : DType
  values : List Value
deriving DecidableEq

/-- Pointwise combination of three equal-length lists. -/
def zipWith3 {a b c d : Type} (f : a → b → c → d) : List a → List b → List c → List d
  | x :: xs, y :: ys, z :: zs => f x y z :: zipWith3 f xs ys zs
  | _, _, _ => []

/-- Modelled from the spec §4.3: `Conditional` evaluates its condition to a
boolean mask and selects element-wise between then/otherwise, promoting
both branches' dtypes to their common supertype. -/
def evalConditional (cond : List Bool) (thenS otherwiseS : Series) : Series :=
  ⟨commonSupertype thenS.dtype otherwiseS.dtype,
    zipWith3
      (fun b t e =>
        if b then castTo (commonSupertype thenS.dtype otherwiseS.dtype) t
        else castTo (commonSupertype thenS.dtype otherwiseS.dtype) e)
      cond thenS.values otherwiseS.values⟩

/-- Modelled from the spec §4.1: the two null strategies of the horizontal
reductions. -/
inductive NullStrategy where
  | ignore
  | propagate
deriving DecidableEq

/-- Modelled from the spec §4.1: null-aware addition — under propagate any
null operand poisons the result, under ignore nulls are skipped. -/
def nullAdd : NullStrategy → Option ℚ → Option ℚ → Option ℚ
  | _, some a, some b => some (a + b)
  | .ignore, some a, none => some a
  | .ignore, none, some b => some b
  | .ignore, none, none => none
  | .propagate, _, _ => none

/-- Modelled from the spec §4.1: the horizontal (axis=1) sum reduction folds
one row's cells with the strategy's addition. -/
def hSumRow (st : NullStrategy) (row : List (Option ℚ)) : Option ℚ :=
  match row with
  | [] => none
  | c :: rest => rest.foldl (nullAdd st) c

/-- Modelled from the spec §4.1: the horizontal mean divides the horizontal
sum by the number of contributing cells — all cells under propagate, the
non-null cells under ignore. -/
def hMeanRow (st : NullStrategy) (row : List (Option ℚ)) : Option ℚ :=
  (hSumRow st row).map
    (fun s => s /
      (match st with
       | .ignore => ((row.filterMap id).length : ℚ)
       | .propagate => (row.length : ℚ)))

/-- Row-wise sum over the whole table (one result per row). -/
def hSumTable (st : NullStrategy) (rows : List (List (Option ℚ))) : List (Option ℚ) :=
  rows.map (hSumRow st)

/-- Row-wise mean over the whole table (one result per row). -/
def hMeanTable (st : NullStrategy) (rows : List (List (Option ℚ))) : List (Option ℚ) :=
  rows.map (hMeanRow st)

/-- Modelled from the spec §4.5: join key resolution — `on` binds both
sides; otherwise both `left_on` and `right_on` must be present with equal
arity; anything else is a malformed call (`ValueError`). -/
def resolveJoinKeys (onKeys leftOn rightOn : Option (List String)) :
    Except PolarsError (List String × List String) :=
  match onKeys with
  | some ks => .ok (ks, ks)
  | none =>
    match leftOn, rightOn with
    | some l, some r =>
      if l.length = r.length then .ok (l, r) else .error .valueError
    | _, _ => .error .valueError

/-- The cells of a named column, empty when the name is absent. -/
def lookupCol (df : DataFrame) (nm : String) : List Value :=
  ((df.cols.find? (fun c => c.1 = nm)).map (fun c => c.2)).getD []

/-- The composite key tuple of row `i` over the given key columns. -/
def keyTuple (df : DataFrame) (keys : List String) (i : Nat) : List Value :=
  keys.map (fun nm => (lookupCol df nm).getD i Value.null)

/-- Modelled from the spec §4.5: inner join row matching — the matching row
pairs, by composite key tuple equality, in row order. -/
def innerJoinRowIds (ldf rdf : DataFrame) (lk rk : List String) : List (Nat × Nat) :=
  (List.range ldf.height).flatMap
    (fun i =>
      ((List.range rdf.height).filter
          (fun j => decide (keyTuple ldf lk i = keyTuple rdf rk j))).map
        (fun j => (i, j)))

/-- Modelled from the spec §4.5: the join entry point — key resolution runs
before any execution, so an invalid key specification errors without
touching either table. -/
def joinFrames (ldf rdf : DataFrame) (onKeys leftOn rightOn : Option (List String)) :
    Except PolarsError (List (Nat × Nat)) :=
  match resolveJoinKeys onKeys leftOn rightOn with
  | .error e => .error e
  | .ok (lk, rk) => .ok (innerJoinRowIds ldf rdf lk rk)

end Polars

namespace Polars

/-- The claim C2: constructing a Table from a column-name → sequence mapping
succeeds with `height` = the common sequence length and `width` = the number
of keys when all sequences have equal length, and yields `ShapeError`
whenever two supplied sequences have different lengths. -/
theorem mkDataFrame_spec (data : List (String × List Value)) :
    ((∀ c ∈ data, ∀ c' ∈ data, c.2.length = c'.2.length) →
      ∃ df, mkDataFrame data = .ok df ∧ df.width = data.length ∧
        ∀ c ∈ data, c.2.length = df.height) ∧
    ((∃ c ∈ data, ∃ c' ∈ data, c.2.length ≠ c'.2.length) →
      mkDataFrame data = .error .shapeError) := by
  constructor
  · intro h
    match data with
    | [] => exact ⟨⟨[]⟩, rfl, rfl, by simp⟩
    | c :: rest =>
      refine ⟨⟨c :: rest⟩, ?_, rfl, ?_⟩
      · have hall : rest.all (fun c2 => c2.2.length = c.2.length) = true := by
          rw [List.all_eq_true]
          intro c2 hc2
          exact decide_eq_true (h c2 (List.mem_cons_of_mem _ hc2) c (List.mem_cons_self _ _))
        simp [mkDataFrame, hall]
      · intro c' hc'
        exact h c' hc' c (List.mem_cons_self _ _)
  · rintro ⟨c, hc, c', hc', hne⟩
    match data with
    | [] => cases hc
    | c0 :: rest =>
      have : ¬ (rest.all (fun c2 => c2.2.length = c0.2.length) = true) := by
        rw [List.all_eq_true]
        intro hall
        have hlen : ∀ x ∈ c0 :: rest, x.2.length = c0.2.length := by
          intro x hx
          rcases List.mem_cons.mp hx with h | h
          · rw [h]
          · exact of_decide_eq_true (hall x h)
        exact hne ((hlen c hc).trans (hlen c' hc').symm)
      simp only [mkDataFrame, if_neg this]

/-- Concrete instance of C2: a two-column mapping with equal lengths builds,
and the length-mismatched mapping from test_init_errors raises ShapeError. -/
theorem mkDataFrame_spec_witness :
    (∃ df, mkDataFrame [("a", [Value.int 1, Value.int 2]), ("b", [Value.int 3, Value.int 4])]
        = .ok df ∧ df.width = 2 ∧
        ∀ c ∈ [("a", [Value.int 1, Value.int 2]), ("b", [Value.int 3, Value.int 4])],
          c.2.length = df.height) ∧
    mkDataFrame [("a", [Value.int 1, Value.int 2, Value.int 3]),
                 ("b", [Value.rat 1, Value.rat 2, Value.rat 3, Value.rat 4])]
      = .error .shapeError := by
  constructor
  · exact (mkDataFrame_spec _).1 (by decide)
  · exact (mkDataFrame_spec _).2 ⟨("a", [Value.int 1, Value.int 2, Value.int 3]),
      by simp, ("b", [Value.rat 1, Value.rat 2, Value.rat 3, Value.rat 4]), by simp, by decide⟩

/-- Helper: mapping a function that fixes every element of a list leaves the
list unchanged. -/
theorem list_map_self {α : Type} {f : α → α} :
    ∀ l : List α, (∀ x ∈ l, f x = x) → l.map f = l := by
  intro l
  induction l with
  | nil => intro _; rfl
  | cons x xs ih =>
    intro h
    rw [List.map_cons, h x (List.mem_cons_self _ _), ih (fun y hy => h y (List.mem_cons_of_mem _ hy))]

/-- The claim C9: for every table of height h and every n > h, head(n) and
tail(n) return the full table unchanged rather than failing. -/
theorem head_tail_overshoot (df : DataFrame) (n : Nat)
    (hwf : df.wellFormed) (hn : df.height < n) :
    df.head n = df ∧ df.tail n = df := by
  have hcols : ∀ c ∈ df.cols, c.2.length ≤ n := by
    intro c hc
    exact le_of_lt (lt_of_eq_of_lt (hwf c hc) hn)
  constructor
  · show DataFrame.mk (df.cols.map (fun c => (c.1, c.2.take n))) = df
    have : df.cols.map (fun c => (c.1, c.2.take n)) = df.cols := by
      refine list_map_self _ (fun c hc => ?_)
      rw [List.take_of_length_le (hcols c hc)]
    rw [this]
  · show DataFrame.mk (df.cols.map (fun c => (c.1, c.2.drop (c.2.length - n)))) = df
    have : df.cols.map (fun c => (c.1, c.2.drop (c.2.length - n))) = df.cols := by
      refine list_map_self _ (fun c hc => ?_)
      rw [Nat.sub_eq_zero_of_le (hcols c hc), List.drop_zero]
    rw [this]

/-- Concrete instance of C9: head(100) and tail(100) on a height-3 table
return it unchanged, as in test_head_tail_limit. -/
theorem head_tail_overshoot_witness :
    DataFrame.head ⟨[("a", [Value.int 0, Value.int 1, Value.int 2]),
                     ("b", [Value.int 0, Value.int 1, Value.int 2])]⟩ 100
      = ⟨[("a", [Value.int 0, Value.int 1, Value.int 2]),
          ("b", [Value.int 0, Value.int 1, Value.int 2])]⟩ ∧
    DataFrame.tail ⟨[("a", [Value.int 0, Value.int 1, Value.int 2]),
                     ("b", [Value.int 0, Value.int 1, Value.int 2])]⟩ 100
      = ⟨[("a", [Value.int 0, Value.int 1, Value.int 2]),
          ("b", [Value.int 0, Value.int 1, Value.int 2])]⟩ :=
  head_tail_overshoot _ 100 (by intro c hc; fin_cases hc <;> rfl) (by decide)

/-- The claim C10: concat never mutates its inputs — after a concat call on
any selection of tables from the caller's store, every previously stored
table still holds the same shape and contents. -/
theorem concat_preserves_inputs (store : List DataFrame) (ids : List Nat)
    (i : Nat) (hi : i < store.length) :
    (concatInStore store ids)[i]? = store[i]? := by
  unfold concatInStore
  cases concatFrames (ids.filterMap (fun j => store.get? j)) with
  | ok df => exact List.getElem?_append_left hi
  | error e => rfl

/-- Concrete instance of C10: concatenating a stored table with itself
leaves the stored original unchanged, as in test_concat. -/
theorem concat_preserves_inputs_witness :
    (concatInStore [⟨[("a", [Value.int 1, Value.int 2]), ("b", [Value.int 3, Value.int 4])]⟩]
        [0, 0])[0]?
      = some ⟨[("a", [Value.int 1, Value.int 2]), ("b", [Value.int 3, Value.int 4])]⟩ :=
  Trans.trans
    (concat_preserves_inputs
      [⟨[("a", [Value.int 1, Value.int 2]), ("b", [Value.int 3, Value.int 4])]⟩] [0, 0] 0
      (by decide))
    rfl

/-- Projecting the keys back out of the enumerated rows gives the input. -/
theorem enumRows_map_snd {α : Type} (i : Nat) (ks : List α) :
    (enumRows i ks).map Prod.snd = ks := by
  induction ks generalizing i with
  | nil => rfl
  | cons k ks ih => simp [enumRows, ih]

/-- Every enumerated row carries an index at least the starting index. -/
theorem enumRows_idx_ge {α : Type} {i : Nat} {ks : List α} {p : Nat × α}
    (h : p ∈ enumRows i ks) : i ≤ p.1 := by
  induction ks generalizing i with
  | nil => cases h
  | cons k ks ih =>
    rcases List.mem_cons.mp h with h | h
    · rw [h]
    · exact Nat.le_of_succ_le (ih h)

/-- A row index determines its key among the enumerated rows. -/
theorem enumRows_functional {α : Type} {i : Nat} {ks : List α} {j : Nat} {a b : α}
    (ha : (j, a) ∈ enumRows i ks) (hb : (j, b) ∈ enumRows i ks) : a = b := by
  induction ks generalizing i with
  | nil => cases ha
  | cons k ks ih =>
    rcases List.mem_cons.mp ha with ha' | ha' <;> rcases List.mem_cons.mp hb with hb' | hb'
    · rw [(Prod.mk.injEq _ _ _ _).mp ha' |>.2, (Prod.mk.injEq _ _ _ _).mp hb' |>.2]
    · exact absurd (enumRows_idx_ge hb') (by
        have := (Prod.mk.injEq _ _ _ _).mp ha' |>.1
        omega)
    · exact absurd (enumRows_idx_ge ha') (by
        have := (Prod.mk.injEq _ _ _ _).mp hb' |>.1
        omega)
    · exact ih ha' hb'

/-- Recorded indices distribute over appending enumerated rows. -/
theorem indicesOf_append {α : Type} [DecidableEq α] (k : α) (xs ys : List (Nat × α)) :
    indicesOf k (xs ++ ys) = indicesOf k xs ++ indicesOf k ys := by
  simp [indicesOf, List.filter_append]

/-- A key absent from the rows records no indices. -/
theorem indicesOf_eq_nil {α : Type} [DecidableEq α] {k : α} {xs : List (Nat × α)}
    (h : k ∉ xs.map Prod.snd) : indicesOf k xs = [] := by
  simp only [indicesOf, List.map_eq_nil_iff, List.filter_eq_nil_iff]
  intro p hp
  simp only [decide_eq_true_eq]
  intro hk
  exact h (List.mem_map.mpr ⟨p, hp, hk⟩)

/-- Membership in the recorded indices of a key is membership of the pair. -/
theorem mem_indicesOf {α : Type} [DecidableEq α] {k : α} {xs : List (Nat × α)} {j : Nat} :
    j ∈ indicesOf k xs ↔ (j, k) ∈ xs := by
  simp only [indicesOf, List.mem_map, List.mem_filter, decide_eq_true_eq]
  constructor
  · rintro ⟨p, ⟨hp, hk⟩, hj⟩
    rwa [← hj, ← hk]
  · intro h
    exact ⟨(j, k), ⟨h, rfl⟩, rfl⟩

/-- Processing an appended block continues from the accumulated state. -/
theorem firstOccAux_append {α : Type} [DecidableEq α] (acc : List α) (l l' : List α) :
    firstOccAux acc (l ++ l') = firstOccAux (firstOccAux acc l) l' := by
  induction l generalizing acc with
  | nil => rfl
  | cons k ks ih => simp [firstOccAux, ih]

/-- Membership after accumulation: either already seen or in the block. -/
theorem mem_firstOccAux {α : Type} [DecidableEq α] {x : α} (acc : List α) (l : List α) :
    x ∈ firstOccAux acc l ↔ x ∈ acc ∨ x ∈ l := by
  induction l generalizing acc with
  | nil => simp [firstOccAux]
  | cons k ks ih =>
    by_cases hk : k ∈ acc
    · rw [firstOccAux, if_pos hk, ih]
      constructor
      · rintro (h | h)
        · exact Or.inl h
        · exact Or.inr (List.mem_cons_of_mem _ h)
      · rintro (h | h)
        · exact Or.inl h
        · rcases List.mem_cons.mp h with h | h
          · exact Or.inl (h ▸ hk)
          · exact Or.inr h
    · rw [firstOccAux, if_neg hk, ih]
      simp only [List.mem_append, List.mem_singleton, List.mem_cons]
      tauto

/-- Accumulation preserves freedom from duplicates. -/
theorem nodup_firstOccAux {α : Type} [DecidableEq α] {acc : List α} (l : List α)
    (h : acc.Nodup) : (firstOccAux acc l).Nodup := by
  induction l generalizing acc with
  | nil => exact h
  | cons k ks ih =>
    by_cases hk : k ∈ acc
    · rw [firstOccAux, if_pos hk]
      exact ih h
    · rw [firstOccAux, if_neg hk]
      refine ih ?_
      simp [List.nodup_append, h, hk]

/-- The first-occurrence list holds exactly the input's keys. -/
theorem mem_firstOccurrences {α : Type} [DecidableEq α] {x : α} {l : List α} :
    x ∈ firstOccurrences l ↔ x ∈ l := by
  rw [firstOccurrences, mem_firstOccAux]
  simp

/-- The first-occurrence list is duplicate-free. -/
theorem nodup_firstOccurrences {α : Type} [DecidableEq α] (l : List α) :
    (firstOccurrences l).Nodup :=
  nodup_firstOccAux l List.nodup_nil

/-- Appending one key extends the first-occurrence list iff it is new. -/
theorem firstOccurrences_append_single {α : Type} [DecidableEq α] (l : List α) (k : α) :
    firstOccurrences (l ++ [k]) =
      if k ∈ firstOccurrences l then firstOccurrences l else firstOccurrences l ++ [k] := by
  rw [firstOccurrences, firstOccAux_append]
  rfl

/-- Inserting a row of a key already present updates that key's entry in a
key-indexed map of groups and touches nothing else. -/
theorem insertRow_map_mem {α : Type} [DecidableEq α] {l : List α} (f : α → List Nat)
    {k : α} (i : Nat) (hnd : l.Nodup) (hk : k ∈ l) :
    insertRow (l.map (fun k' => (k', f k'))) k i
      = l.map (fun k' => (k', if k' = k then f k' ++ [i] else f k')) := by
  induction l with
  | nil => cases hk
  | cons a t ih =>
    by_cases ha : a = k
    · simp only [List.map_cons, insertRow, if_pos ha, if_pos ha]
      congr 1
      refine (List.map_congr_left ?_).symm
      intro x hx
      have hxk : x ≠ k := by
        intro hxe
        exact (List.nodup_cons.mp hnd).1 (ha ▸ hxe ▸ hx)
      rw [if_neg hxk]
    · have hkt : k ∈ t := by
        rcases List.mem_cons.mp hk with h | h
        · exact absurd h.symm ha
        · exact h
      simp only [List.map_cons, insertRow, if_neg ha, if_neg ha]
      rw [ih (List.nodup_cons.mp hnd).2 hkt]

/-- Inserting a row of a fresh key appends a new one-row group. -/
theorem insertRow_map_not_mem {α : Type} [DecidableEq α] {l : List α} (f : α → List Nat)
    {k : α} (i : Nat) (hk : k ∉ l) :
    insertRow (l.map (fun k' => (k', f k'))) k i
      = l.map (fun k' => (k', f k')) ++ [(k, [i])] := by
  induction l with
  | nil => rfl
  | cons a t ih =>
    have ha : a ≠ k := fun h => hk (h ▸ List.mem_cons_self _ _)
    simp only [List.map_cons, insertRow, if_neg ha, List.cons_append]
    rw [ih (fun h => hk (List.mem_cons_of_mem _ h))]

/-- One insertion step takes the canonical group state of the consumed rows
to the canonical state with the new row appended. -/
theorem insertRow_canon {α : Type} [DecidableEq α] (xs : List (Nat × α)) (k : α) (i : Nat) :
    insertRow (canonGroups xs) k i = canonGroups (xs ++ [(i, k)]) := by
  by_cases hk : k ∈ firstOccurrences (xs.map Prod.snd)
  · rw [canonGroups, insertRow_map_mem _ i (nodup_firstOccurrences _) hk, canonGroups]
    have hfo : firstOccurrences ((xs ++ [(i, k)]).map Prod.snd)
        = firstOccurrences (xs.map Prod.snd) := by
      rw [List.map_append, List.map_singleton, firstOccurrences_append_single, if_pos hk]
    rw [hfo]
    refine List.map_congr_left ?_
    intro x hx
    rw [indicesOf_append]
    by_cases hxk : x = k
    · rw [if_pos hxk, hxk]
      simp [indicesOf]
    · rw [if_neg hxk]
      have : indicesOf x [(i, k)] = [] := by
        simp only [indicesOf, List.filter_cons, List.filter_nil, decide_eq_true_eq]
        rw [if_neg (fun h : k = x => hxk h.symm)]
        rfl
      rw [this, List.append_nil]
  · rw [canonGroups, insertRow_map_not_mem _ i hk, canonGroups]
    have hfo : firstOccurrences ((xs ++ [(i, k)]).map Prod.snd)
        = firstOccurrences (xs.map Prod.snd) ++ [k] := by
      rw [List.map_append, List.map_singleton, firstOccurrences_append_single, if_neg hk]
    rw [hfo, List.map_append, List.map_singleton]
    congr 1
    · refine List.map_congr_left ?_
      intro x hx
      have hxk : x ≠ k := fun h => hk (h ▸ hx)
      rw [indicesOf_append]
      have : indicesOf x [(i, k)] = [] := by
        simp only [indicesOf, List.filter_cons, List.filter_nil, decide_eq_true_eq]
        rw [if_neg (fun h : k = x => hxk h.symm)]
        rfl
      rw [this, List.append_nil]
    · have hnil : indicesOf k xs = [] :=
        indicesOf_eq_nil (fun h => hk (mem_firstOccurrences.mpr h))
      rw [indicesOf_append, hnil]
      simp [indicesOf]

/-- The single-pass group build computes the canonical group state. -/
theorem groupPairsFrom_canon {α : Type} [DecidableEq α] (pairs xs : List (Nat × α)) :
    groupPairsFrom (canonGroups xs) pairs = canonGroups (xs ++ pairs) := by
  induction pairs generalizing xs with
  | nil => rw [List.append_nil]; rfl
  | cons p rest ih =>
    have hstep : groupPairsFrom (canonGroups xs) (p :: rest)
        = groupPairsFrom (insertRow (canonGroups xs) p.2 p.1) rest := rfl
    rw [hstep, insertRow_canon, ih]
    congr 1
    simp

/-- The hash groupby from the empty state is the canonical group state. -/
theorem groupPairs_eq_canon {α : Type} [DecidableEq α] (pairs : List (Nat × α)) :
    groupPairs pairs = canonGroups pairs := by
  have h0 : (canonGroups ([] : List (Nat × α))) = [] := rfl
  have := groupPairsFrom_canon pairs ([] : List (Nat × α))
  rwa [h0, List.nil_append] at this

/-- Unfolding the claim-side group membership one input row at a time. -/
theorem groupRows_cons {α : Type} [DecidableEq α] (k0 : α) (ks : List α) (k : α) :
    groupRows (k0 :: ks) k
      = (if k0 = k then [0] else []) ++ (groupRows ks k).map Nat.succ := by
  rw [groupRows, List.length_cons, List.range_succ_eq_map, List.filter_cons,
    List.filter_map]
  have hcomp : ((fun i => decide ((k0 :: ks)[i]? = some k)) ∘ Nat.succ)
      = (fun i => decide (ks[i]? = some k)) := by
    funext i
    simp
  rw [hcomp]
  by_cases h0 : k0 = k
  · simp only [List.getElem?_cons_zero, decide_eq_true_eq, Option.some.injEq]
    rw [if_pos h0, if_pos h0]
    rfl
  · simp only [List.getElem?_cons_zero, decide_eq_true_eq, Option.some.injEq]
    rw [if_neg h0, if_neg h0]
    rfl

/-- The indices the engine records for a key are the claim-side group rows,
shifted by the enumeration offset. -/
theorem indicesOf_enumRows {α : Type} [DecidableEq α] (k : α) (ks : List α) (i : Nat) :
    indicesOf k (enumRows i ks) = (groupRows ks k).map (· + i) := by
  induction ks generalizing i with
  | nil => rfl
  | cons k0 ks ih =>
    have hcons : indicesOf k (enumRows i (k0 :: ks))
        = (if k0 = k then [i] else []) ++ indicesOf k (enumRows (i + 1) ks) := by
      rw [enumRows]
      show indicesOf k ([(i, k0)] ++ enumRows (i + 1) ks) = _
      rw [indicesOf_append]
      congr 1
      by_cases h0 : k0 = k
      · simp [indicesOf, h0]
      · simp [indicesOf, fun h : k0 = k => h0 h]
    rw [hcons, ih, groupRows_cons, List.map_append, List.map_map]
    congr 1
    · by_cases h0 : k0 = k
      · rw [if_pos h0, if_pos h0]
        simp
      · rw [if_neg h0, if_neg h0]
        rfl
    · refine List.map_congr_left ?_
      intro j _
      show j + (i + 1) = j + 1 + i
      omega

/-- With offset zero the recorded indices are exactly the group rows. -/
theorem indicesOf_enumRows_zero {α : Type} [DecidableEq α] (k : α) (ks : List α) :
    indicesOf k (enumRows 0 ks) = groupRows ks k := by
  rw [indicesOf_enumRows]
  refine Trans.trans (List.map_congr_left ?_) (List.map_id _)
  intro j _
  exact Nat.add_zero j

/-- Collecting a column at the group rows of a key lists exactly that
group's values in original within-group row order. -/
theorem filterMap_groupRows {α β : Type} [DecidableEq α] (ks : List α) (ys : List β)
    (h : ks.length = ys.length) (k : α) :
    (groupRows ks k).filterMap (fun i => ys[i]?) = groupValues ks ys k := by
  induction ks generalizing ys with
  | nil => cases ys with
    | nil => rfl
    | cons y ys => cases h
  | cons k0 ks ih =>
    cases ys with
    | nil => cases h
    | cons y0 ys =>
      rw [groupRows_cons, List.filterMap_append, List.filterMap_map]
      have hcomp : ((fun i => (y0 :: ys)[i]?) ∘ Nat.succ) = (fun i => ys[i]?) := by
        funext i
        simp
      have hGV : groupValues (k0 :: ks) (y0 :: ys) k
          = (if k0 = k then [y0] else []) ++ groupValues ks ys k := by
        by_cases h0 : k0 = k
        · simp [groupValues, List.zip_cons_cons, List.filter_cons, h0]
        · simp [groupValues, List.zip_cons_cons, List.filter_cons, h0]
      rw [hcomp, ih ys (by simpa using h), hGV]
      congr 1
      by_cases h0 : k0 = k
      · simp [h0]
      · simp [h0]

/-- Appending to a nonempty list does not change its head. -/
theorem headD_append_left {α : Type} {l : List α} (h : l ≠ []) (l' : List α) (d : α) :
    (l ++ l').headD d = l.headD d := by
  cases l with
  | nil => exact absurd rfl h
  | cons x xs => rfl

/-- Every group after an insertion is an old group, that old group with the
new row appended, or the fresh one-row group. -/
theorem mem_insertRow {α : Type} [DecidableEq α] {acc : List (α × List Nat)} {k : α}
    {i : Nat} {g : α × List Nat} (h : g ∈ insertRow acc k i) :
    (∃ g' ∈ acc, g.1 = g'.1 ∧ (g.2 = g'.2 ∨ g.2 = g'.2 ++ [i])) ∨ g = (k, [i]) := by
  induction acc with
  | nil =>
    rcases List.mem_singleton.mp h with h'
    exact Or.inr h'
  | cons g0 rest ih =>
    by_cases h0 : g0.1 = k
    · rw [insertRow, if_pos h0] at h
      rcases List.mem_cons.mp h with h' | h'
      · exact Or.inl ⟨g0, List.mem_cons_self _ _, by rw [h'], Or.inr (by rw [h'])⟩
      · exact Or.inl ⟨g, List.mem_cons_of_mem _ h', rfl, Or.inl rfl⟩
    · rw [insertRow, if_neg h0] at h
      rcases List.mem_cons.mp h with h' | h'
      · exact Or.inl ⟨g0, List.mem_cons_self _ _, by rw [h'], Or.inl (by rw [h'])⟩
      · rcases ih h' with ⟨g', hg', hfst, hsnd⟩ | h''
        · exact Or.inl ⟨g', List.mem_cons_of_mem _ hg', hfst, hsnd⟩
        · exact Or.inr h''

/-- One insertion preserves the group-state invariant: groups are nonempty,
their first indices stay below the running row index, and they sit in
strictly increasing first-index order. -/
theorem insertRow_inv {α : Type} [DecidableEq α] {acc : List (α × List Nat)} {k : α}
    {i : Nat}
    (hne : ∀ g ∈ acc, g.2 ≠ []) (hlt : ∀ g ∈ acc, firstIdx g < i)
    (hpw : acc.Pairwise (fun g g' => firstIdx g < firstIdx g')) :
    (∀ g ∈ insertRow acc k i, g.2 ≠ []) ∧
      (∀ g ∈ insertRow acc k i, firstIdx g < i + 1) ∧
      (insertRow acc k i).Pairwise (fun g g' => firstIdx g < firstIdx g') := by
  induction acc with
  | nil =>
    refine ⟨?_, ?_, ?_⟩
    · intro g hg
      rw [List.mem_singleton.mp hg]
      simp
    · intro g hg
      rw [List.mem_singleton.mp hg]
      simp [firstIdx]
    · exact List.pairwise_singleton _ _
  | cons g0 rest ih =>
    have hne0 : g0.2 ≠ [] := hne g0 (List.mem_cons_self _ _)
    have hlt0 : firstIdx g0 < i := hlt g0 (List.mem_cons_self _ _)
    have hneR : ∀ g ∈ rest, g.2 ≠ [] := fun g hg => hne g (List.mem_cons_of_mem _ hg)
    have hltR : ∀ g ∈ rest, firstIdx g < i := fun g hg => hlt g (List.mem_cons_of_mem _ hg)
    have hpwR := (List.pairwise_cons.mp hpw).2
    have hpw0 := (List.pairwise_cons.mp hpw).1
    by_cases h0 : g0.1 = k
    · rw [insertRow, if_pos h0]
      have hfi : firstIdx (g0.1, g0.2 ++ [i]) = firstIdx g0 := by
        simp only [firstIdx]
        exact headD_append_left hne0 _ _
      refine ⟨?_, ?_, ?_⟩
      · intro g hg
        rcases List.mem_cons.mp hg with h' | h'
        · rw [h']
          simp
        · exact hneR g h'
      · intro g hg
        rcases List.mem_cons.mp hg with h' | h'
        · rw [h', hfi]
          omega
        · exact Nat.lt_succ_of_lt (hltR g h')
      · rw [List.pairwise_cons]
        refine ⟨?_, hpwR⟩
        intro g' hg'
        rw [hfi]
        exact hpw0 g' hg'
    · rw [insertRow, if_neg h0]
      rcases ih hneR hltR hpwR with ⟨ihne, ihlt, ihpw⟩
      refine ⟨?_, ?_, ?_⟩
      · intro g hg
        rcases List.mem_cons.mp hg with h' | h'
        · rw [h']
          exact hne0
        · exact ihne g h'
      · intro g hg
        rcases List.mem_cons.mp hg with h' | h'
        · rw [h']
          exact Nat.lt_succ_of_lt hlt0
        · exact ihlt g h'
      · rw [List.pairwise_cons]
        refine ⟨?_, ihpw⟩
        intro g' hg'
        rcases mem_insertRow hg' with ⟨g'', hg'', _, hsnd⟩ | h''
        · have : firstIdx g' = firstIdx g'' := by
            rcases hsnd with h | h
            · simp [firstIdx, h]
            · simp only [firstIdx, h]
              exact headD_append_left (hneR g'' hg'') _ _
          rw [this]
          exact hpw0 g'' hg''
        · rw [h'']
          simpa [firstIdx] using hlt0

/-- The single-pass build over enumerated rows keeps groups nonempty, first
indices below the final row index, and emission order strictly increasing in
first-occurrence index. -/
theorem groupPairsFrom_inv {α : Type} [DecidableEq α] (ks : List α) (i : Nat)
    (acc : List (α × List Nat))
    (hne : ∀ g ∈ acc, g.2 ≠ []) (hlt : ∀ g ∈ acc, firstIdx g < i + 1)
    (hpw : acc.Pairwise (fun g g' => firstIdx g < firstIdx g')) :
    (∀ g ∈ groupPairsFrom acc (enumRows (i + 1) ks), g.2 ≠ []) ∧
      (groupPairsFrom acc (enumRows (i + 1) ks)).Pairwise
        (fun g g' => firstIdx g < firstIdx g') := by
  induction ks generalizing acc i with
  | nil => exact ⟨hne, hpw⟩
  | cons k ks ih =>
    show (∀ g ∈ groupPairsFrom (insertRow acc k (i + 1)) (enumRows (i + 1 + 1) ks), g.2 ≠ []) ∧ _
    rcases insertRow_inv (i := i + 1) hne hlt hpw with ⟨h1, h2, h3⟩
    exact ih (i + 1) (insertRow acc k (i + 1)) h1 h2 h3

/-- The maintain_order groupby emits nonempty groups in strictly increasing
first-occurrence order. -/
theorem groupByOrdered_inv {α : Type} [DecidableEq α] (ks : List α) :
    (∀ g ∈ groupByOrdered ks, g.2 ≠ []) ∧
      (groupByOrdered ks).Pairwise (fun g g' => firstIdx g < firstIdx g') := by
  cases ks with
  | nil => exact ⟨fun g hg => absurd hg (List.not_mem_nil g), List.Pairwise.nil⟩
  | cons k ks =>
    show (∀ g ∈ groupPairsFrom (insertRow [] k 0) (enumRows 1 ks), g.2 ≠ []) ∧ _
    refine groupPairsFrom_inv ks 0 (insertRow [] k 0) ?_ ?_ ?_
    · intro g hg
      rw [List.mem_singleton.mp hg]
      simp
    · intro g hg
      rw [List.mem_singleton.mp hg]
      simp [firstIdx]
    · exact List.pairwise_singleton _ _

/-- Filtering rows by a predicate on keys that holds at `k` keeps every row
of group `k`: its recorded indices are unchanged. -/
theorem indicesOf_filter_of_true {α : Type} [DecidableEq α] {Q : α → Bool} {k : α}
    (hQ : Q k = true) (pairs : List (Nat × α)) :
    indicesOf k (pairs.filter (fun q => Q q.2)) = indicesOf k pairs := by
  rw [indicesOf, List.filter_filter, indicesOf]
  congr 1
  refine List.filter_congr ?_
  intro p _
  by_cases hp : p.2 = k
  · simp [hp, hQ]
  · simp [hp]

/-- Every key emitted for a partition belongs to that partition. -/
theorem partKey_part {α : Type} [DecidableEq α] {P : α → Nat} {n p : Nat} {k : α}
    {pairs : List (Nat × α)}
    (h : k ∈ firstOccurrences
      ((pairs.filter (fun q => decide (P q.2 % n = p))).map Prod.snd)) :
    P k % n = p := by
  rcases List.mem_map.mp (mem_firstOccurrences.mp h) with ⟨q, hq, hqk⟩
  have := (List.mem_filter.mp hq).2
  rw [hqk] at this
  exact of_decide_eq_true this

/-- One partition's hash groupby emits its partition's first-seen keys, each
with the key's full recorded index list from the whole input. -/
theorem groupPairs_partition {α : Type} [DecidableEq α] (P : α → Nat) (n p : Nat)
    (pairs : List (Nat × α)) :
    groupPairs (pairs.filter (fun q => decide (P q.2 % n = p)))
      = (firstOccurrences
          ((pairs.filter (fun q => decide (P q.2 % n = p))).map Prod.snd)).map
          (fun k => (k, indicesOf k pairs)) := by
  rw [groupPairs_eq_canon, canonGroups]
  refine List.map_congr_left ?_
  intro k hk
  have hQ : decide (P k % n = p) = true := decide_eq_true (partKey_part hk)
  rw [indicesOf_filter_of_true (Q := fun a => decide (P a % n = p)) hQ]

/-- The concatenated partition results list the partition keys in partition
order, each with its full recorded index list. -/
theorem merged_eq_map {α : Type} [DecidableEq α] (P : α → Nat) (n : Nat)
    (pairs : List (Nat × α)) :
    ((List.range n).map
        (fun p => groupPairs (pairs.filter (fun q => decide (P q.2 % n = p))))).flatten
      = (partitionKeys P n pairs).map (fun k => (k, indicesOf k pairs)) := by
  rw [partitionKeys, List.map_flatten, List.map_map]
  congr 1
  refine List.map_congr_left ?_
  intro p _
  exact groupPairs_partition P n p pairs

/-- The partition keys are duplicate-free. -/
theorem nodup_partitionKeys {α : Type} [DecidableEq α] (P : α → Nat) (n : Nat)
    (pairs : List (Nat × α)) : (partitionKeys P n pairs).Nodup := by
  rw [partitionKeys, List.nodup_flatten]
  constructor
  · intro l hl
    rcases List.mem_map.mp hl with ⟨p, _, hp⟩
    rw [← hp]
    exact nodup_firstOccurrences _
  · rw [List.pairwise_map]
    refine (List.pairwise_lt_range n).imp ?_
    intro p p' hpp' k hk hk'
    exact absurd ((partKey_part hk).symm.trans (partKey_part hk')) (Nat.ne_of_lt hpp')

/-- With at least one partition, the partition keys are exactly the input's
keys. -/
theorem mem_partitionKeys {α : Type} [DecidableEq α] {P : α → Nat} {n : Nat}
    (hn : 0 < n) {pairs : List (Nat × α)} {k : α} :
    k ∈ partitionKeys P n pairs ↔ k ∈ pairs.map Prod.snd := by
  rw [partitionKeys, List.mem_flatten]
  constructor
  · rintro ⟨l, hl, hkl⟩
    rcases List.mem_map.mp hl with ⟨p, _, hp⟩
    rw [← hp] at hkl
    rcases List.mem_map.mp (mem_firstOccurrences.mp hkl) with ⟨q, hq, hqk⟩
    exact List.mem_map.mpr ⟨q, (List.mem_filter.mp hq).1, hqk⟩
  · intro hk
    refine ⟨firstOccurrences
      ((pairs.filter (fun q => decide (P q.2 % n = P k % n))).map Prod.snd), ?_, ?_⟩
    · exact List.mem_map.mpr ⟨P k % n, List.mem_range.mpr (Nat.mod_lt _ hn), rfl⟩
    · rcases List.mem_map.mp hk with ⟨q, hq, hqk⟩
      refine mem_firstOccurrences.mpr (List.mem_map.mpr ⟨q, List.mem_filter.mpr ⟨hq, ?_⟩, hqk⟩)
      rw [hqk]
      exact decide_eq_true rfl

/-- With at least one partition, the partition keys are a permutation of the
first-occurrence key order of the whole input. -/
theorem partitionKeys_perm {α : Type} [DecidableEq α] {P : α → Nat} {n : Nat}
    (hn : 0 < n) (pairs : List (Nat × α)) :
    (partitionKeys P n pairs).Perm (firstOccurrences (pairs.map Prod.snd)) := by
  refine List.perm_of_nodup_nodup_toFinset_eq (nodup_partitionKeys P n pairs)
    (nodup_firstOccurrences _) ?_
  ext k
  rw [List.mem_toFinset, List.mem_toFinset, mem_partitionKeys hn, mem_firstOccurrences]

/-- The head of a nonempty list with a default is a member. -/
theorem headD_mem {α : Type} {l : List α} (h : l ≠ []) (d : α) : l.headD d ∈ l := by
  cases l with
  | nil => exact absurd rfl h
  | cons x xs => exact List.mem_cons_self _ _

/-- A key occurring in the input has at least one group row. -/
theorem groupRows_ne_nil {α : Type} [DecidableEq α] {ks : List α} {k : α}
    (h : k ∈ ks) : groupRows ks k ≠ [] := by
  rw [← indicesOf_enumRows_zero]
  rcases List.mem_map.mp ((enumRows_map_snd 0 ks).symm ▸ h) with ⟨q, hq, hqk⟩
  intro hnil
  have : q.1 ∈ indicesOf k (enumRows 0 ks) :=
    mem_indicesOf.mpr (by rwa [← hqk, Prod.mk.eta])
  rw [hnil] at this
  cases this

/-- Two input keys with the same first-occurrence row index coincide. -/
theorem groupRows_headD_inj {α : Type} [DecidableEq α] {ks : List α} {k k' : α}
    (hk : k ∈ ks) (hk' : k' ∈ ks)
    (h : (groupRows ks k).headD 0 = (groupRows ks k').headD 0) : k = k' := by
  have h1 : (groupRows ks k).headD 0 ∈ indicesOf k (enumRows 0 ks) := by
    rw [indicesOf_enumRows_zero]
    exact headD_mem (groupRows_ne_nil hk) 0
  have h2 : (groupRows ks k').headD 0 ∈ indicesOf k' (enumRows 0 ks) := by
    rw [indicesOf_enumRows_zero]
    exact headD_mem (groupRows_ne_nil hk') 0
  rw [h] at h1
  exact enumRows_functional (mem_indicesOf.mp h1) (mem_indicesOf.mp h2)

/-- The maintain_order groupby in canonical form: the first-seen keys in
first-occurrence order, each with its group rows. -/
theorem groupByOrdered_canonical {α : Type} [DecidableEq α] (ks : List α) :
    groupByOrdered ks = (firstOccurrences ks).map (fun k => (k, groupRows ks k)) := by
  rw [groupByOrdered, groupPairs_eq_canon, canonGroups, enumRows_map_snd]
  refine List.map_congr_left ?_
  intro k _
  rw [indicesOf_enumRows_zero]

/-- The unordered partitioned groupby in canonical form: the partition keys
in partition order, each with its group rows. -/
theorem partitionedGroupBy_false_eq {α : Type} [DecidableEq α] (P : α → Nat) (n : Nat)
    (ks : List α) :
    partitionedGroupBy P n false ks
      = (partitionKeys P n (enumRows 0 ks)).map (fun k => (k, groupRows ks k)) := by
  show ((List.range n).map
      (fun p => groupPairs ((enumRows 0 ks).filter
        (fun q => decide (P q.2 % n = p))))).flatten = _
  rw [merged_eq_map]
  refine List.map_congr_left ?_
  intro k _
  rw [indicesOf_enumRows_zero]

/-- The maintain_order partitioned groupby re-sorts the merged partition
results by first-occurrence row index. -/
theorem partitionedGroupBy_true_eq_sort {α : Type} [DecidableEq α] (P : α → Nat)
    (n : Nat) (ks : List α) :
    partitionedGroupBy P n true ks
      = (partitionedGroupBy P n false ks).insertionSort
          (fun g g' => firstIdx g ≤ firstIdx g') := rfl

/-- The claim C1: with maintain_order=True the groupby emits groups in the
order of each key's first occurrence in the input, each group holds its row
indices in original order, list-aggregated values within each group appear
in the original within-group row order whether or not maintain_order is
set, and the partitioned-hash execution path produces the identical
maintain_order result (and the identical group contents without it). -/
theorem groupby_order_spec {α β : Type} [DecidableEq α] (ks : List α) (ys : List β)
    (P : α → Nat) (nparts : Nat) (hn : 0 < nparts) :
    ((groupByOrdered ks).map Prod.fst = firstOccurrences ks)
    ∧ (∀ g ∈ groupByOrdered ks, g.2 = groupRows ks g.1)
    ∧ (ks.length = ys.length →
        ∀ g ∈ aggListOf (groupByOrdered ks) ys, g.2 = groupValues ks ys g.1)
    ∧ partitionedGroupBy P nparts true ks = groupByOrdered ks
    ∧ (∀ g ∈ partitionedGroupBy P nparts false ks, g.2 = groupRows ks g.1)
    ∧ (ks.length = ys.length →
        ∀ g ∈ aggListOf (partitionedGroupBy P nparts false ks) ys,
          g.2 = groupValues ks ys g.1) := by
  have hcanon := groupByOrdered_canonical ks
  have hmergedEq := partitionedGroupBy_false_eq P nparts ks
  have hkeys : ∀ k ∈ partitionKeys P nparts (enumRows 0 ks), k ∈ ks := by
    intro k hk
    have := (mem_partitionKeys hn).mp hk
    rwa [enumRows_map_snd] at this
  have hcontents : ∀ {groups : List (α × List Nat)},
      (∀ g ∈ groups, g.2 = groupRows ks g.1) → ks.length = ys.length →
      ∀ g ∈ aggListOf groups ys, g.2 = groupValues ks ys g.1 := by
    intro groups hg hlen g hmem
    rcases List.mem_map.mp hmem with ⟨g0, hg0, hgg⟩
    rw [← hgg]
    show g0.2.filterMap (fun i => ys[i]?) = groupValues ks ys g0.1
    rw [hg g0 hg0, filterMap_groupRows ks ys hlen]
  have hordered_contents : ∀ g ∈ groupByOrdered ks, g.2 = groupRows ks g.1 := by
    intro g hg
    rw [hcanon] at hg
    rcases List.mem_map.mp hg with ⟨k, _, hkg⟩
    rw [← hkg]
  have hmerged_contents : ∀ g ∈ partitionedGroupBy P nparts false ks,
      g.2 = groupRows ks g.1 := by
    intro g hg
    rw [hmergedEq] at hg
    rcases List.mem_map.mp hg with ⟨k, _, hkg⟩
    rw [← hkg]
  have hperm : (partitionedGroupBy P nparts false ks).Perm (groupByOrdered ks) := by
    rw [hmergedEq, hcanon]
    refine List.Perm.map _ ?_
    have := partitionKeys_perm (P := P) hn (enumRows 0 ks)
    rwa [enumRows_map_snd] at this
  refine ⟨?_, hordered_contents, hcontents hordered_contents, ?_, hmerged_contents,
    hcontents hmerged_contents⟩
  · rw [hcanon, List.map_map]
    exact List.map_id _
  · have hsortPerm : (partitionedGroupBy P nparts true ks).Perm
        (partitionedGroupBy P nparts false ks) := by
      rw [partitionedGroupBy_true_eq_sort]
      exact List.perm_insertionSort _ _
    have hsortedLe : (partitionedGroupBy P nparts true ks).Pairwise
        (fun g g' => firstIdx g ≤ firstIdx g') := by
      rw [partitionedGroupBy_true_eq_sort]
      exact @List.sorted_insertionSort _ (fun g g' => firstIdx g ≤ firstIdx g') _
        ⟨fun a b => Nat.le_total _ _⟩ ⟨fun a b c => Nat.le_trans⟩ _
    have hneMerged : (partitionedGroupBy P nparts false ks).Pairwise
        (fun g g' => firstIdx g ≠ firstIdx g') := by
      rw [hmergedEq, List.pairwise_map]
      refine List.Pairwise.imp_of_mem ?_ (nodup_partitionKeys P nparts (enumRows 0 ks))
      intro k k' hk hk' hkk' heq
      exact hkk' (groupRows_headD_inj (hkeys k hk) (hkeys k' hk') heq)
    have hneSorted : (partitionedGroupBy P nparts true ks).Pairwise
        (fun g g' => firstIdx g ≠ firstIdx g') :=
      (hsortPerm.pairwise_iff (fun h => h.symm)).mpr hneMerged
    have hltSorted : (partitionedGroupBy P nparts true ks).Pairwise
        (fun g g' => firstIdx g < firstIdx g') :=
      (hsortedLe.and hneSorted).imp (fun h => Nat.lt_of_le_of_ne h.1 h.2)
    have hltOrdered := (groupByOrdered_inv ks).2
    haveI : IsAntisymm (α × List Nat) (fun g g' => firstIdx g < firstIdx g') :=
      ⟨fun a b h1 h2 => absurd (Nat.lt_trans h1 h2) (Nat.lt_irrefl _)⟩
    exact List.eq_of_perm_of_sorted (hsortPerm.trans hperm) hltSorted hltOrdered

/-- Concrete instance of C1 on the data of test_groupby_order_dispatch:
keys b,a,b with values 0,1,2 — groups emitted b then a, values listed in
original row order, and the partitioned path agrees. -/
theorem groupby_order_spec_witness :
    groupByOrdered ["b", "a", "b"] = [("b", [0, 2]), ("a", [1])] ∧
    (groupByOrdered ["b", "a", "b"]).map Prod.fst = firstOccurrences ["b", "a", "b"] ∧
    partitionedGroupBy (fun s => s.length) 2 true ["b", "a", "b"]
      = groupByOrdered ["b", "a", "b"] ∧
    aggListOf (groupByOrdered ["b", "a", "b"]) [(0 : Int), 1, 2]
      = [("b", [0, 2]), ("a", [1])] := by
  refine ⟨by decide, ?_, ?_, by decide⟩
  · exact (groupby_order_spec ["b", "a", "b"] [(0 : Int), 1, 2]
      (fun s => s.length) 2 (by decide)).1
  · exact (groupby_order_spec ["b", "a", "b"] [(0 : Int), 1, 2]
      (fun s => s.length) 2 (by decide)).2.2.2.1

/-- The claim C3: explode on a list column maps each empty-list cell to
exactly one row whose exploded value is null (never zero rows), and each
non-empty cell to one row per element in element order — so the output
length counts every cell as max 1 its length. -/
theorem explode_empty_spec :
    (∀ rows : List (Value × List Value),
      (explodeRows rows).length = (rows.map (fun r => max 1 r.2.length)).sum)
    ∧ (∀ (rows1 rows2 : List (Value × List Value)) (k : Value),
        explodeRows (rows1 ++ (k, []) :: rows2)
          = explodeRows rows1 ++ (k, Value.null) :: explodeRows rows2)
    ∧ (∀ (k : Value) (vs : List Value), vs ≠ [] →
        explodeRows [(k, vs)] = vs.map (fun v => (k, v))) := by
  have hcell_len : ∀ cell : List Value, (explodeCell cell).length = max 1 cell.length := by
    intro cell
    cases cell with
    | nil => rfl
    | cons v vs => simp [explodeCell]
  refine ⟨?_, ?_, ?_⟩
  · intro rows
    rw [explodeRows, List.length_flatMap]
    congr 1
    refine List.map_congr_left ?_
    intro r _
    show ((explodeCell r.2).map _).length = _
    rw [List.length_map, hcell_len]
  · intro rows1 rows2 k
    rw [explodeRows, explodeRows, explodeRows, List.flatMap_append, List.flatMap_cons]
    rfl
  · intro k vs hvs
    cases vs with
    | nil => exact absurd rfl hvs
    | cons v vs =>
      rw [explodeRows, List.flatMap_cons, List.flatMap_nil, List.append_nil]
      rfl

/-- Concrete instance of C3 on the data of test_explode_empty: the rows
x=1,2,4 with list cells [a,b,c],[d],[] explode to five rows, the empty cell
contributing the single null row. -/
theorem explode_empty_spec_witness :
    explodeRows
        [(Value.str ['1'], [Value.str ['a'], Value.str ['b'], Value.str ['c']]),
         (Value.str ['2'], [Value.str ['d']]),
         (Value.str ['4'], [])]
      = [(Value.str ['1'], Value.str ['a']), (Value.str ['1'], Value.str ['b']),
         (Value.str ['1'], Value.str ['c']), (Value.str ['2'], Value.str ['d']),
         (Value.str ['4'], Value.null)] ∧
    explodeRows [(Value.str ['2'], [Value.str ['d']])]
      = [Value.str ['d']].map (fun v => (Value.str ['2'], v)) := by
  constructor
  · decide
  · exact explode_empty_spec.2.2 (Value.str ['2']) [Value.str ['d']] (by decide)

/-- Helper: a bounded modular fold of a sum equals the sum taken modulo. -/
theorem sumWithModulus_eq_mod {m : Nat} (hm : 0 < m) (xs : List Nat) :
    sumWithModulus m xs = xs.sum % m := by
  have haux : ∀ (xs : List Nat) (a : Nat), a < m →
      xs.foldl (fun a x => (a + x) % m) a = (a + xs.sum) % m := by
    intro xs
    induction xs with
    | nil =>
      intro a ha
      simp [Nat.mod_eq_of_lt ha]
    | cons x xs ih =>
      intro a ha
      rw [List.foldl_cons, ih _ (Nat.mod_lt _ hm), Nat.mod_add_mod, List.sum_cons]
      congr 1
      omega
  rw [sumWithModulus, haux xs 0 hm, Nat.zero_add]

/-- Helper: a list of values below a bound sums below bound times length. -/
theorem sum_le_of_forall_lt {c : Nat} (xs : List Nat) (h : ∀ x ∈ xs, x < c) :
    xs.sum ≤ (c - 1) * xs.length := by
  induction xs with
  | nil => simp
  | cons x t ih =>
    rw [List.sum_cons, List.length_cons]
    have hx : x < c := h x (List.mem_cons_self _ _)
    have ht := ih (fun y hy => h y (List.mem_cons_of_mem _ hy))
    have : (c - 1) * (t.length + 1) = (c - 1) * t.length + (c - 1) := by ring
    omega

/-- The claim C4: mean aggregation over a narrow (UInt16) integer column
upcasts internally, so the result equals the exact mathematical mean with
no wraparound at the narrow type's modulus, for any column whose 64-bit
upcast sum cannot overflow. -/
theorem mean_upcast_spec (xs : List Nat) (hb : ∀ x ∈ xs, x < 2 ^ 16)
    (hlen : xs.length < 2 ^ 48) :
    meanUpcastUInt16 xs = (xs.sum : ℚ) / (xs.length : ℚ) := by
  have hsum : xs.sum < 2 ^ 64 := by
    have h1 := sum_le_of_forall_lt xs hb
    have h2 : (2 ^ 16 - 1 : Nat) = 65535 := by norm_num
    have h3 : (2 ^ 48 : Nat) = 281474976710656 := by norm_num
    have h4 : (2 ^ 64 : Nat) = 18446744073709551616 := by norm_num
    rw [h2] at h1
    rw [h3] at hlen
    rw [h4]
    have h5 : 65535 * xs.length ≤ 65535 * 281474976710655 :=
      Nat.mul_le_mul_left _ (by omega)
    omega
  rw [meanUpcastUInt16, sumWithModulus_eq_mod (by norm_num) xs,
    Nat.mod_eq_of_lt hsum]

/-- Concrete instance of C4 on the data of test_overflow_uint16_agg_mean:
1025 UInt16 values all 64 — the upcast mean is exactly 64 even though the
raw sum 65600 wraps to 64 in a 16-bit accumulator. -/
theorem mean_upcast_spec_witness :
    meanUpcastUInt16 (List.replicate 1025 64) = 64 ∧
    sumWithModulus (2 ^ 16) (List.replicate 1025 64) = 64 := by
  constructor
  · have h := mean_upcast_spec (List.replicate 1025 64)
      (fun x hx => by rw [List.eq_of_mem_replicate hx]; norm_num)
      (by rw [List.length_replicate]; norm_num)
    rw [h, List.sum_replicate, List.length_replicate]
    norm_num
  · rw [sumWithModulus_eq_mod (by norm_num), List.sum_replicate]
    norm_num

/-- The claim C5: for the table {foo:[1..5], bar:[6..10], ham:[a..e]},
write_csv emits exactly one comma-joined header line and one comma-joined
row per record with trailing newline, and re-reading that output reproduces
the original integer and string column values exactly. -/
theorem write_csv_round_trip :
    writeCSV csvTestFrame
      = ("foo,bar,ham\n1,6,a\n2,7,b\n3,8,c\n4,9,d\n5,10,e\n" : String).data ∧
    readCSV ("foo,bar,ham\n1,6,a\n2,7,b\n3,8,c\n4,9,d\n5,10,e\n" : String).data
      = csvTestFrame := by
  constructor
  · decide
  · decide

/-- Pointwise lookup into a three-way zip. -/
theorem zipWith3_getElem? {a b c d : Type} (f : a → b → c → d) :
    ∀ (xs : List a) (ys : List b) (zs : List c) (i : Nat) (x : a) (y : b) (z : c),
      xs[i]? = some x → ys[i]? = some y → zs[i]? = some z →
      (zipWith3 f xs ys zs)[i]? = some (f x y z) := by
  intro xs
  induction xs with
  | nil =>
    intro ys zs i x y z hx
    simp at hx
  | cons x0 xs ih =>
    intro ys zs i x y z hx hy hz
    cases ys with
    | nil => simp at hy
    | cons y0 ys =>
      cases zs with
      | nil => simp at hz
      | cons z0 zs =>
        cases i with
        | zero =>
          simp only [List.getElem?_cons_zero, Option.some.injEq] at hx hy hz
          rw [zipWith3, List.getElem?_cons_zero, hx, hy, hz]
        | succ i =>
          simp only [List.getElem?_cons_succ] at hx hy hz
          rw [zipWith3, List.getElem?_cons_succ]
          exact ih ys zs i x y z hx hy hz

/-- The claim C6: a when/then/otherwise conditional promotes both branches
to their common supertype — Float32 branches keep Float32, an integer
branch against a string branch yields string — and selects element-wise by
the boolean mask, casting the selected branch cell to the promoted type. -/
theorem conditional_supertype_spec (cond : List Bool) (t o : Series) :
    (evalConditional cond t o).dtype = commonSupertype t.dtype o.dtype
    ∧ (t.dtype = DType.float32 → o.dtype = DType.float32 →
        (evalConditional cond t o).dtype = DType.float32)
    ∧ commonSupertype DType.int64 DType.utf8 = DType.utf8
    ∧ (∀ (i : Nat) (b : Bool) (tv ov : Value),
        cond[i]? = some b → t.values[i]? = some tv → o.values[i]? = some ov →
        (evalConditional cond t o).values[i]?
          = some (if b then castTo (commonSupertype t.dtype o.dtype) tv
                  else castTo (commonSupertype t.dtype o.dtype) ov)) := by
  refine ⟨rfl, ?_, rfl, ?_⟩
  · intro ht ho
    show commonSupertype t.dtype o.dtype = DType.float32
    rw [ht, ho]
    rfl
  · intro i b tv ov hb htv hov
    exact zipWith3_getElem? _ cond t.values o.values i b tv ov hb htv hov

/-- Concrete instance of C6 on the data of
test_type_coercion_when_then_otherwise_2806: nrs*2 (integers) against the
string literal "other" promotes to string and renders the taken integers,
and two Float32 branches keep Float32. -/
theorem conditional_supertype_spec_witness :
    evalConditional [false, true, true]
        ⟨DType.int64, [Value.int 2, Value.int 4, Value.int 6]⟩
        ⟨DType.utf8, [Value.str "other".data, Value.str "other".data,
                      Value.str "other".data]⟩
      = ⟨DType.utf8, [Value.str "other".data, Value.str "4".data,
                      Value.str "6".data]⟩ ∧
    (evalConditional [true, false]
        ⟨DType.float32, [Value.rat 1, Value.rat 2]⟩
        ⟨DType.float32, [Value.rat 0, Value.rat 0]⟩).dtype = DType.float32 ∧
    (evalConditional [false, true, true]
        ⟨DType.int64, [Value.int 2, Value.int 4, Value.int 6]⟩
        ⟨DType.utf8, [Value.str "other".data, Value.str "other".data,
                      Value.str "other".data]⟩).values[1]?
      = some (Value.str "4".data) := by
  refine ⟨by decide, ?_, ?_⟩
  · exact (conditional_supertype_spec [true, false]
      ⟨DType.float32, [Value.rat 1, Value.rat 2]⟩
      ⟨DType.float32, [Value.rat 0, Value.rat 0]⟩).2.1 rfl rfl
  · exact Trans.trans
      ((conditional_supertype_spec [false, true, true]
        ⟨DType.int64, [Value.int 2, Value.int 4, Value.int 6]⟩
        ⟨DType.utf8, [Value.str "other".data, Value.str "other".data,
                      Value.str "other".data]⟩).2.2.2 1 true (Value.int 4)
        (Value.str "other".data) (by decide) (by decide) (by decide))
      (by decide)

/-- Ignoring nulls, a fold started on a value sums the remaining non-null
cells onto it. -/
theorem foldl_ignore_some (rest : List (Option ℚ)) :
    ∀ a : ℚ, rest.foldl (nullAdd .ignore) (some a)
      = some (a + (rest.filterMap id).sum) := by
  induction rest with
  | nil =>
    intro a
    simp
  | cons c t ih =>
    intro a
    cases c with
    | none =>
      rw [List.foldl_cons]
      show t.foldl _ (some a) = _
      rw [ih]
      simp
    | some b =>
      rw [List.foldl_cons]
      show t.foldl _ (some (a + b)) = _
      rw [ih]
      simp [add_assoc]

/-- Ignoring nulls, a fold started on null sums the non-null cells if any
exist. -/
theorem foldl_ignore_none (rest : List (Option ℚ)) :
    rest.foldl (nullAdd .ignore) none
      = if rest.filterMap id = [] then none else some (rest.filterMap id).sum := by
  induction rest with
  | nil => rfl
  | cons c t ih =>
    cases c with
    | none =>
      rw [List.foldl_cons]
      show t.foldl _ none = _
      rw [ih]
      simp
    | some b =>
      rw [List.foldl_cons]
      show t.foldl _ (some b) = _
      rw [foldl_ignore_some]
      simp

/-- Propagating nulls, a fold started on null stays null. -/
theorem foldl_propagate_none (rest : List (Option ℚ)) :
    rest.foldl (nullAdd .propagate) none = none := by
  induction rest with
  | nil => rfl
  | cons c t ih =>
    rw [List.foldl_cons]
    show t.foldl _ (nullAdd .propagate none c) = none
    cases c <;> exact ih

/-- Propagating nulls, any null cell poisons the fold. -/
theorem foldl_propagate_mem {rest : List (Option ℚ)} (h : none ∈ rest) :
    ∀ acc, rest.foldl (nullAdd .propagate) acc = none := by
  induction rest with
  | nil => cases h
  | cons c t ih =>
    intro acc
    rcases List.mem_cons.mp h with hc | ht
    · rw [List.foldl_cons, ← hc]
      have : nullAdd .propagate acc none = none := by
        cases acc <;> rfl
      rw [this]
      exact foldl_propagate_none t
    · rw [List.foldl_cons]
      exact ih ht _

/-- Propagating nulls over an all-non-null tail sums every cell. -/
theorem foldl_propagate_all_some {rest : List (Option ℚ)} (h : none ∉ rest) :
    ∀ a : ℚ, rest.foldl (nullAdd .propagate) (some a)
      = some (a + (rest.filterMap id).sum) := by
  induction rest with
  | nil =>
    intro a
    simp
  | cons c t ih =>
    intro a
    cases c with
    | none => exact absurd (List.mem_cons_self _ _) h
    | some b =>
      rw [List.foldl_cons]
      show t.foldl _ (some (a + b)) = _
      rw [ih (fun hm => h (List.mem_cons_of_mem _ hm))]
      simp [add_assoc]

/-- The ignore-strategy horizontal sum is the sum of the row's non-null
cells (null when there are none). -/
theorem hSumRow_ignore (row : List (Option ℚ)) :
    hSumRow .ignore row
      = if row.filterMap id = [] then none else some (row.filterMap id).sum := by
  cases row with
  | nil => rfl
  | cons c rest =>
    cases c with
    | none =>
      show rest.foldl _ none = _
      rw [foldl_ignore_none]
      simp
    | some a =>
      show rest.foldl _ (some a) = _
      rw [foldl_ignore_some]
      simp

/-- The propagate-strategy horizontal sum of a row holding a null is null. -/
theorem hSumRow_propagate_none {row : List (Option ℚ)} (h : none ∈ row) :
    hSumRow .propagate row = none := by
  cases row with
  | nil => cases h
  | cons c rest =>
    rcases List.mem_cons.mp h with hc | ht
    · show rest.foldl _ c = none
      rw [← hc]
      exact foldl_propagate_none rest
    · exact foldl_propagate_mem ht c

/-- The propagate-strategy horizontal sum of a null-free nonempty row sums
every cell. -/
theorem hSumRow_propagate_some {row : List (Option ℚ)} (hnn : none ∉ row)
    (hne : row ≠ []) :
    hSumRow .propagate row = some (row.filterMap id).sum := by
  cases row with
  | nil => exact absurd rfl hne
  | cons c rest =>
    cases c with
    | none => exact absurd (List.mem_cons_self _ _) hnn
    | some a =>
      show rest.foldl _ (some a) = _
      rw [foldl_propagate_all_some (fun hm => hnn (List.mem_cons_of_mem _ hm))]
      simp

/-- The claim C7: the horizontal (row-wise) sum and mean skip nulls under
null_strategy ignore (each row's result is the sum/mean of its non-null
cells) and propagate nulls under null_strategy propagate (any null cell
makes that row's result null; otherwise every cell contributes). -/
theorem h_agg_null_strategy (rows : List (List (Option ℚ))) :
    (hSumTable .ignore rows = rows.map (fun row =>
        if row.filterMap id = [] then none else some (row.filterMap id).sum))
    ∧ (∀ row ∈ rows, none ∈ row → hSumRow .propagate row = none)
    ∧ (∀ row ∈ rows, none ∉ row → row ≠ [] →
        hSumRow .propagate row = some (row.filterMap id).sum)
    ∧ (hMeanTable .ignore rows = rows.map (fun row =>
        if row.filterMap id = [] then none
        else some ((row.filterMap id).sum / ((row.filterMap id).length : ℚ))))
    ∧ (∀ row ∈ rows, none ∈ row → hMeanRow .propagate row = none)
    ∧ (∀ row ∈ rows, none ∉ row → row ≠ [] →
        hMeanRow .propagate row = some ((row.filterMap id).sum / (row.length : ℚ))) := by
  refine ⟨?_, fun row _ h => hSumRow_propagate_none h,
    fun row _ h1 h2 => hSumRow_propagate_some h1 h2, ?_, ?_, ?_⟩
  · refine List.map_congr_left ?_
    intro row _
    exact hSumRow_ignore row
  · refine List.map_congr_left ?_
    intro row _
    rw [hMeanRow, hSumRow_ignore]
    by_cases h : row.filterMap id = []
    · rw [if_pos h, if_pos h]
      rfl
    · rw [if_neg h, if_neg h]
      rfl
  · intro row _ h
    rw [hMeanRow, hSumRow_propagate_none h]
    rfl
  · intro row _ h1 h2
    rw [hMeanRow, hSumRow_propagate_some h1 h2]
    rfl

/-- Concrete instance of C7 on the data of test_h_agg: rows (1,1), (null,2),
(3,3) — ignore sums give 2,2,6; propagate sums give 2,null,6; propagate
means give 1,null,3. -/
theorem h_agg_null_strategy_witness :
    hSumTable .ignore [[some 1, some 1], [none, some 2], [some 3, some 3]]
      = [some 2, some 2, some 6] ∧
    hSumRow .propagate [none, some (2 : ℚ)] = none ∧
    hSumRow .propagate [some (1 : ℚ), some 1] = some 2 ∧
    hMeanRow .propagate [some (1 : ℚ), some 1] = some 1 ∧
    hMeanRow .propagate [none, some (2 : ℚ)] = none := by
  refine ⟨?_, ?_, ?_, ?_, ?_⟩
  · rw [(h_agg_null_strategy [[some 1, some 1], [none, some 2], [some 3, some 3]]).1]
    norm_num [List.filterMap_cons]
    exact ⟨fun h => absurd h (Option.some_ne_none _),
      fun h => absurd h (Option.some_ne_none _),
      fun h => absurd h (Option.some_ne_none _)⟩
  · exact (h_agg_null_strategy [[none, some 2]]).2.1 _ (List.mem_singleton.mpr rfl)
      (List.mem_cons_self _ _)
  · refine Trans.trans ((h_agg_null_strategy [[some 1, some 1]]).2.2.1 _
      (List.mem_singleton.mpr rfl) (by decide) (by decide)) ?_
    norm_num [List.filterMap_cons]
  · refine Trans.trans ((h_agg_null_strategy [[some 1, some 1]]).2.2.2.2.2 _
      (List.mem_singleton.mpr rfl) (by decide) (by decide)) ?_
    norm_num [List.filterMap_cons]
  · exact (h_agg_null_strategy [[none, some 2]]).2.2.2.2.1 _
      (List.mem_singleton.mpr rfl) (List.mem_cons_self _ _)

/-- The claim C8: a join call errors with ValueError before any execution —
for every pair of tables — whenever no key specification is given, only one
of left_on/right_on is given without on, or the two key lists have
different arity. -/
theorem join_key_validation (ldf rdf : DataFrame)
    (onKeys leftOn rightOn : Option (List String)) :
    (onKeys = none → leftOn = none ∨ rightOn = none →
      joinFrames ldf rdf onKeys leftOn rightOn = .error .valueError)
    ∧ (∀ l r, onKeys = none → leftOn = some l → rightOn = some r →
        l.length ≠ r.length →
        joinFrames ldf rdf onKeys leftOn rightOn = .error .valueError) := by
  constructor
  · rintro rfl (rfl | rfl)
    · cases rightOn <;> rfl
    · cases leftOn <;> rfl
  · rintro l r rfl rfl rfl hne
    have hres : resolveJoinKeys none (some l) (some r)
        = Except.error PolarsError.valueError := by
      simp only [resolveJoinKeys, if_neg hne]
    simp only [joinFrames, hres]

/-- Concrete instance of C8 on the calls of test_join: join with no keys,
with only right_on, with only left_on, and with mismatched key arity all
raise ValueError on any pair of tables. -/
theorem join_key_validation_witness :
    joinFrames ⟨[]⟩ ⟨[]⟩ none none none = .error .valueError ∧
    joinFrames ⟨[]⟩ ⟨[]⟩ none none (some ["a"]) = .error .valueError ∧
    joinFrames ⟨[]⟩ ⟨[]⟩ none (some ["a"]) none = .error .valueError ∧
    joinFrames ⟨[]⟩ ⟨[]⟩ none (some ["a"]) (some ["a", "b"]) = .error .valueError := by
  refine ⟨?_, ?_, ?_, ?_⟩
  · exact (join_key_validation ⟨[]⟩ ⟨[]⟩ none none none).1 rfl (Or.inl rfl)
  · exact (join_key_validation ⟨[]⟩ ⟨[]⟩ none none (some ["a"])).1 rfl (Or.inl rfl)
  · exact (join_key_validation ⟨[]⟩ ⟨[]⟩ none (some ["a"]) none).1 rfl (Or.inr rfl)
  · exact (join_key_validation ⟨[]⟩ ⟨[]⟩ none (some ["a"]) (some ["a", "b"])).2
      ["a"] ["a", "b"] rfl rfl rfl (by decide)

end Polars
